import Mathlib

/-!
# Shallow embedding of the hdbppviewer archive connector and its cache

This file embeds, in Lean 4, the parts of the `web-maxiv-hdbppviewer`
repository that the verified claims are about:

* `utils.py` — `SizeLimitedCache` (a size-bounded LRU cache whose backing
  stores `_cache` and `_sizes` are *class-level* attributes) and the
  `retry_future` adapter;
* `hdbpp.py` — `HDBPlusPlusConnection.get_attribute_data`,
  `get_attribute_period`, `_get_attribute_period_today` (the live-day merge)
  and `_get_attribute_period` (the raw per-day DB fetch);
* `data.py` — `resample` (the downstream processing applied by readers).

Modelling conventions:

* A pandas dataframe of archive rows is a `List Sample`; `data_time` is the
  pandas timestamp in whole nanoseconds since the epoch and `data_time_us`
  is the separate microsecond column, exactly as in the HDB++ schema.
* The Python `OrderedDict` `_cache` is a `List (key × value)` whose head is
  the least-recently-used entry (`popitem(last=False)` pops the head,
  re-insertion appends at the tail); the plain dict `_sizes` is an
  association list.  Dict keys are unique, so removing a key by filtering
  agrees with `dict.pop`.
* The cassandra driver is a parameter: a function from the bound query
  arguments (period, optional `data_time` lower bound) to `Except E Series`.
* An asyncio future that may never be completed (the live-day merge swallows
  fetch errors inside its done-callback) is modelled by `FutState`, with a
  third state `pending` for a future that is never resolved.
-/

/-- One archive row, as selected by the prepared `data` / `data_after`
statements: `SELECT data_time, data_time_us, value_r, error_desc`.
`data_time` is modelled as the pandas timestamp in nanoseconds since the
epoch (HDB++ writes it with second precision, but the column type allows
finer values, and the code defensively floors it). -/
structure Sample where
  data_time : Nat
  data_time_us : Nat
  value_r : Rat
  error_desc : Option String
deriving DecidableEq

/-- A per-day series: the dataframe produced by one `data` query. -/
abbrev Series := List Sample

/-- `pd.concat(list_of_frames, ignore_index=True)`: stable concatenation of
the per-day tables.  Note `pd.concat` always produces a fresh frame (a
copy), so downstream mutation of its result never reaches the inputs. -/
def concatSeries (l : List Series) : Series := l.flatten

/-! ## `SizeLimitedCache` (utils.py, lines 174-236)

The backing stores `_cache = OrderedDict()` and `_sizes = {}` are class
attributes of `SizeLimitedCache`, initialised once when the class body is
executed, and the methods mutate them in place; `__init__` only stores the
per-instance `max_size` and `get_item_size`.  We therefore embed the shared
class-level state as an explicit `CacheState` value threaded through the
methods, and an *instance* as just the record of the two constructor
fields.  Constructing an instance does not touch the shared state. -/

/-- The shared, class-level mutable state of `SizeLimitedCache`:
`_cache` (an `OrderedDict`; head of the list = least recently used) and
`_sizes` (a dict from key to the recorded cost). -/
structure CacheState (K V : Type) where
  cache : List (K × V)
  sizes : List (K × Nat)
deriving DecidableEq

/-- The empty shared state, as initialised in the class body
(`_cache = OrderedDict()`, `_sizes = {}`). -/
def CacheState.empty (K V : Type) : CacheState K V := ⟨[], []⟩

/-- Lookup in an association list (dict / OrderedDict access by key). -/
def assocLookup {K V : Type} [DecidableEq K] : List (K × V) → K → Option V
  | [], _ => none
  | (k, v) :: rest, k' => if k = k' then some v else assocLookup rest k'

/-- Removal of a key (`dict.pop(name, None)`).  Dict keys are unique, so at
most one entry matches; filtering all matches agrees with `pop`. -/
def removeKey {K V : Type} [DecidableEq K] (k : K) (l : List (K × V)) :
    List (K × V) :=
  l.filter (fun p => decide (p.1 ≠ k))

/-- `sum(self._sizes.values())`. -/
def sizesSum {K : Type} (l : List (K × Nat)) : Nat :=
  (l.map (·.2)).sum

/-- An instance of `SizeLimitedCache`: the fields set by `__init__`.
The backing stores are class-level and live in `CacheState`, not here. -/
structure SizeLimitedCache (V : Type) where
  max_size : Nat
  get_item_size : V → Nat

/-- `SizeLimitedCache.__init__(max_size, get_item_size)`: records the two
fields on the instance and leaves the class-level stores untouched (its
signature takes no `CacheState`, which is the point). -/
def SizeLimitedCache.init {V : Type} (max_size : Nat) (get_item_size : V → Nat) :
    SizeLimitedCache V :=
  ⟨max_size, get_item_size⟩

/-- `SizeLimitedCache.size`: `sum(self._sizes.values())`.  Reads only the
class-level `_sizes`, so the `self` argument is unused. -/
def SizeLimitedCache.size {K V : Type} (_self : SizeLimitedCache V)
    (s : CacheState K V) : Nat :=
  sizesSum s.sizes

/-- `SizeLimitedCache.get(name)`: on a hit, pop the entry and re-insert it
at the most-recently-used end, then return the value; on a miss, raise
`KeyError` (here: return `none`) without touching the state. -/
def SizeLimitedCache.get {K V : Type} [DecidableEq K] (_self : SizeLimitedCache V)
    (name : K) (s : CacheState K V) : Option V × CacheState K V :=
  match assocLookup s.cache name with
  | some value => (some value, ⟨removeKey name s.cache ++ [(name, value)], s.sizes⟩)
  | none => (none, s)

/-- The `while self.size + size > self.max_size` eviction loop of
`SizeLimitedCache.set`: pop the least-recently-used entry
(`self._cache.popitem(last=False)`) and drop its recorded size until the
new value fits.  The `[]` branch of the inner match corresponds to
`popitem` on an empty `OrderedDict` (a `KeyError`); it is unreachable from
any state whose `_cache` and `_sizes` keys agree, because the loop is only
entered with `size < max_size`. -/
def evictLoop {K V : Type} [DecidableEq K] (max_size size : Nat) :
    List (K × V) → List (K × Nat) → List (K × V) × List (K × Nat)
  | cache, sizes =>
    if sizesSum sizes + size > max_size then
      match cache with
      | [] => ([], sizes)
      | (rname, _) :: rest => evictLoop max_size size rest (removeKey rname sizes)
    else (cache, sizes)

/-- `SizeLimitedCache.set(name, value)`: compute the cost; refuse values at
or above the whole budget; drop any prior entry for the key from both
stores; evict least-recently-used entries until the new value fits; insert
at the most-recently-used end and record the cost. -/
def SizeLimitedCache.set {K V : Type} [DecidableEq K] (self : SizeLimitedCache V)
    (name : K) (value : V) (s : CacheState K V) : CacheState K V :=
  let size := self.get_item_size value
  if size ≥ self.max_size then s
  else
    let cache1 := removeKey name s.cache
    let sizes1 := removeKey name s.sizes
    let es := evictLoop self.max_size size cache1 sizes1
    ⟨es.1 ++ [(name, value)], es.2 ++ [(name, size)]⟩

/-- Apply a sequence of `set` operations in order. -/
def applySets {K V : Type} [DecidableEq K] (self : SizeLimitedCache V) :
    List (K × V) → CacheState K V → CacheState K V
  | [], s => s
  | (k, v) :: ops, s => applySets self ops (self.set k v s)

/-- Apply a sequence of `get` operations in order (only the state effects). -/
def applyGets {K V : Type} [DecidableEq K] (self : SizeLimitedCache V) :
    List K → CacheState K V → CacheState K V
  | [], s => s
  | k :: ops, s => applyGets self ops (self.get k s).2

/-! ## `retry_future` (utils.py, lines 53-93)

The decorated function returns a future; on failure the inner function is
re-run until a result is obtained or `self.max_retries` attempts have been
made, in which case the last exception is set on the outer future.  The
repeated invocations of `f` are modelled as a map from the invocation index
to that invocation's outcome.  Note that the source constructor reads
`def __init__(self, max_retries): self.max_retries = 5` — the argument is
discarded and the field is always 5. -/

/-- The state set by `retry_future.__init__`. -/
structure RetryFuture where
  max_retries : Nat

/-- `retry_future.__init__(self, max_retries)`: the body is
`self.max_retries = 5`, so the constructor argument is ignored. -/
def RetryFuture.init (_max_retries : Nat) : RetryFuture := ⟨5⟩

/-- The `resolve_or_retry` callback chain: attempt `i` inspects `f i`;
on success the outer future gets the result; on failure `retries`
becomes `i + 1` and a new inner future is started iff `i + 1 < maxRetries`,
otherwise the outer future gets the last exception. -/
def resolveOrRetry {E A : Type} (maxRetries : Nat) (f : Nat → Except E A)
    (i : Nat) : Except E A :=
  match f i with
  | .ok a => .ok a
  | .error e =>
    if i + 1 < maxRetries then resolveOrRetry maxRetries f (i + 1) else .error e
termination_by maxRetries - i
decreasing_by omega

/-- Calling a `retry_future(max_retries)`-decorated function: the first
inner future is created and `resolve_or_retry` drives the retries, with
the attempt bound taken from the constructed instance. -/
def retryFutureCall {E A : Type} (max_retries : Nat) (f : Nat → Except E A) :
    Except E A :=
  resolveOrRetry (RetryFuture.init max_retries).max_retries f 0

/-! ## Futures

An `asyncio.Future` observed from the outside is in one of three states:
resolved with a result, resolved with an exception, or never resolved.
The third state is reachable in this code base: the live-day merge's
done-callback calls `fut_.result()` unguarded, so a failed fetch raises
inside the callback (asyncio logs the exception) and the outer future is
never completed. -/

/-- Completion state of an `asyncio.Future`. -/
inductive FutState (E A : Type) where
  | res (a : A)
  | err (e : E)
  | pending
deriving DecidableEq

/-- The result of a resolved future, if any. -/
def FutState.resOf {E A : Type} : FutState E A → Option A
  | .res a => some a
  | _ => none

/-- Whether a future will never complete. -/
def FutState.isPending {E A : Type} : FutState E A → Bool
  | .pending => true
  | _ => false

/-- Returning the driver future directly: its completion mirrors the
underlying fetch outcome. -/
def futOfExcept {E A : Type} : Except E A → FutState E A
  | .ok a => .res a
  | .error e => .err e

/-! ## `HDBPlusPlusConnection` (hdbpp.py, lines 110-412)

The cache key is `(cs, attr, period)`.  Periods are calendar days; we model
a day by its ordinal number (an `Int`), so `period == str(date.today())`
becomes equality of day numbers and `strptime(period) < date.today()`
becomes `<` on day numbers.  The cassandra driver (`_get_attribute_period`,
which binds the prepared `data` / `data_after` statement and submits it
through `session.execute_future`) is a parameter mapping the bound
arguments — the period and the optional `data_time >= ?` lower bound in
nanoseconds — to the outcome of the query. -/

/-- The cache key `(cs, attr, period)`. -/
abbrev CacheKey := String × String × Int

/-- The database: outcome of `_get_attribute_period(cs, attr, period,
after)` for fixed `cs, attr`, given the period and the optional lower
bound. -/
abbrev Fetch (E : Type) := Int → Option Nat → Except E Series

/-- `latest = cached["data_time"].max()` followed by
`latest_s = datetime.utcfromtimestamp(int(latest.timestamp()))`:
the whole-second floor of the maximum `data_time`, expressed in
nanoseconds (`int` truncates toward zero, which is the floor for
the non-negative timestamps involved). -/
def latestSec (cached : Series) : Nat :=
  (cached.map (·.data_time)).foldr max 0 / 1000000000 * 1000000000

/-- `truncated = cached[cached["data_time"] < latest_s]`. -/
def truncateCached (cached : Series) : Series :=
  cached.filter (fun smp => decide (smp.data_time < latestSec cached))

/-- `_get_attribute_period_today(cs, attr)`: look up the cached today
entry (which marks it most recently used); if absent or empty, return the
plain fetch future for the whole day; otherwise fetch only
`data_time >= latest_s`, truncate the cached part strictly below
`latest_s`, and resolve a fresh future with the concatenation.  The
done-callback performs `fut.set_result(pd.concat([truncated,
fut_.result()], ignore_index=True))` with no exception guard: when the
fetch fails, `fut_.result()` raises inside the callback and the returned
future is never completed.  Note that no branch writes to the cache. -/
def getAttributePeriodToday {E : Type} (inst : SizeLimitedCache Series)
    (today : Int) (cs attr : String) (fetch : Fetch E)
    (s : CacheState CacheKey Series) :
    FutState E Series × CacheState CacheKey Series :=
  match inst.get (cs, attr, today) s with
  | (none, s1) => (futOfExcept (fetch today none), s1)
  | (some cached, s1) =>
    if cached.isEmpty then (futOfExcept (fetch today none), s1)
    else
      let latest_s := latestSec cached
      let truncated := truncateCached cached
      match fetch today (some latest_s) with
      | .ok newData => (.res (truncated ++ newData), s1)
      | .error _ => (.pending, s1)

/-- `get_attribute_period(cs, attr, period)`: today delegates to the
live-day helper; otherwise a cache hit is wrapped in an already-resolved
future, and a miss launches the fetch, registering a cache-update
callback only when the period is strictly before today (the callback
stores the result only when there is no exception). -/
def getAttributePeriod {E : Type} (inst : SizeLimitedCache Series)
    (today : Int) (cs attr : String) (period : Int) (fetch : Fetch E)
    (s : CacheState CacheKey Series) :
    FutState E Series × CacheState CacheKey Series :=
  if period = today then getAttributePeriodToday inst today cs attr fetch s
  else
    match inst.get (cs, attr, period) s with
    | (some result, s1) => (.res result, s1)
    | (none, s1) =>
      match fetch period none with
      | .ok result =>
        if period < today then (.res result, inst.set (cs, attr, period) result s1)
        else (.res result, s1)
      | .error e => (.err e, s1)

/-- `periods = [(start_date + timedelta(days=d)).strftime(...) for d in
range((end_date - start_date).days + 1)]`, with days as ordinals. -/
def periodsList (start_date end_date : Int) : List Int :=
  (List.range (end_date - start_date + 1).toNat).map
    (fun (d : Nat) => start_date + (d : Int))

/-- `period_queries = [self.get_attribute_period(cs, name, period) for
period in periods]`: the per-day calls are made synchronously in period
order, each one reading and possibly updating the cache. -/
def runPeriods {E : Type} (inst : SizeLimitedCache Series) (today : Int)
    (cs attr : String) (fetch : Fetch E) :
    List Int → CacheState CacheKey Series →
      List (FutState E Series) × CacheState CacheKey Series
  | [], s => ([], s)
  | p :: ps, s =>
    let r := getAttributePeriod inst today cs attr p fetch s
    let rest := runPeriods inst today cs attr fetch ps r.2
    (r.1 :: rest.1, rest.2)

/-- `chunker(it, n) = (it[i:i + n] for i in range(0, len(it), n))`.
(The `n = 0` case would raise `ValueError` in Python; the source only
calls it with `n = 50`.) -/
def chunker {α : Type} : List α → Nat → List (List α)
  | [], _ => []
  | _ :: _, 0 => []
  | x :: xs, n + 1 =>
    ((x :: xs).take (n + 1)) :: chunker ((x :: xs).drop (n + 1)) (n + 1)
termination_by l _ => l.length
decreasing_by simp [List.drop]; omega

/-- The first exception among the gathered futures (completion order is
modelled by list order). -/
def firstErr {E A : Type} : List (FutState E A) → Option E
  | [] => none
  | .err e :: _ => some e
  | _ :: rest => firstErr rest

/-- `asyncio.gather(*chunk)`: raises the first exception if any awaitable
fails (even when other awaitables never complete); never completes when
some awaitable is forever pending and none fails; otherwise completes with
the list of results in argument order. -/
def gatherChunk {E A : Type} (l : List (FutState E A)) : FutState E (List A) :=
  match firstErr l with
  | some e => .err e
  | none =>
    if l.any FutState.isPending then .pending
    else .res (l.filterMap FutState.resOf)

/-- The `for chunk in chunker(period_queries, 50)` loop: each chunk is
gathered and awaited in turn, extending `total_results`; an exception or a
forever-pending chunk makes the whole coroutine fail or hang there. -/
def awaitChunks {E A : Type} : List (List (FutState E A)) → FutState E (List A)
  | [] => .res []
  | c :: rest =>
    match gatherChunk c with
    | .err e => .err e
    | .pending => .pending
    | .res rs =>
      match awaitChunks rest with
      | .err e => .err e
      | .pending => .pending
      | .res more => .res (rs ++ more)

/-- `get_attribute_data(attr, start_time, end_time)` from the point where
the period list has been computed: run the per-day queries, await them in
chunks of 50, and return `pd.concat(total_results, ignore_index=True)` if
`total_results` is non-empty, otherwise fall off the function (Python
`None`).  `start_date` / `end_date` are the local calendar days of the two
bounds. -/
def getAttributeData {E : Type} (inst : SizeLimitedCache Series)
    (today : Int) (cs attr : String) (fetch : Fetch E)
    (start_date end_date : Int) (s : CacheState CacheKey Series) :
    FutState E (Option Series) × CacheState CacheKey Series :=
  let periods := periodsList start_date end_date
  let pr := runPeriods inst today cs attr fetch periods s
  match awaitChunks (chunker pr.1 50) with
  | .err e => (.err e, pr.2)
  | .pending => (.pending, pr.2)
  | .res total_results =>
    (if total_results.isEmpty then .res none
     else .res (some (concatSeries total_results)), pr.2)

/-! ## `resample` (data.py, lines 11-46)

`resample(df, freq)` first materialises a microsecond-timestamp column
`t = df["data_time"].astype("int64") // 1000 + df["data_time_us"]`; with no
frequency it returns the frame as-is, otherwise it rewrites the frequency
suffix (`ms → L`, `s → S`, `m → T`), re-indexes by `t` and takes the
per-bucket arithmetic mean, with buckets given by
`round(t.value / freq.delta.value) * freq.delta.value` (Python's `round`
rounds halves to even).  `pandas.tseries.frequencies.to_offset` is an
external library function and is passed in as a parameter mapping the
translated frequency string to its delta in nanoseconds.  `groupby(...)
.mean()` sorts by group key and keeps only the numeric columns
(`data_time_us`, `value_r`, `t`). -/

/-- A row of the frame after the `t` column has been added. -/
structure SampleT where
  data_time : Nat
  data_time_us : Nat
  value_r : Rat
  error_desc : Option String
  t : Nat
deriving DecidableEq

/-- `df.loc[:, "t"] = df["data_time"].astype("int64") // 1000 +
df["data_time_us"]` (`data_time` is in nanoseconds, so `// 1000` yields
microseconds). -/
def addTColumn (df : Series) : List SampleT :=
  df.map (fun smp =>
    ⟨smp.data_time, smp.data_time_us, smp.value_r, smp.error_desc,
     smp.data_time / 1000 + smp.data_time_us⟩)

/-- The suffix translation applied to the frequency string
(`ms → L`, `s → S`, `m → T`; `str.replace` replaces every occurrence). -/
def translateFreq (freq : String) : String :=
  if freq.endsWith "ms" then freq.replace "ms" "L"
  else if freq.endsWith "s" then freq.replace "s" "S"
  else if freq.endsWith "m" then freq.replace "m" "T"
  else freq

/-- Python 3 `round` on an exact value: round half to even. -/
def pyRound (q : Rat) : Int :=
  if q - ⌊q⌋ = 1 / 2 then (if ⌊q⌋ % 2 = 0 then ⌊q⌋ else ⌊q⌋ + 1)
  else round q

/-- `round_timestamp(t, freq) = round(t.value / freq.delta.value) *
freq.delta.value` with both values in nanoseconds. -/
def round_timestamp (delta : Nat) (t_ns : Int) : Int :=
  pyRound ((t_ns : Rat) / (delta : Rat)) * delta

/-- The group key of a row: its index is `to_datetime(t, unit="us")`
(so `t * 1000` nanoseconds), rounded to the frequency. -/
def bucketOf (delta : Nat) (row : SampleT) : Int :=
  round_timestamp delta ((row.t : Int) * 1000)

/-- The distinct group keys in ascending order (`groupby` sorts). -/
def groupKeys (delta : Nat) (rows : List SampleT) : List Int :=
  ((rows.map (bucketOf delta)).dedup).mergeSort (fun a b => decide (a ≤ b))

/-- Arithmetic mean of a list of rationals. -/
def ratMean (l : List Rat) : Rat := l.sum / (l.length : Rat)

/-- A row of `groupby(...).mean()`: the means of the numeric columns. -/
structure MeanRow where
  data_time_us : Rat
  value_r : Rat
  t : Rat
deriving DecidableEq

/-- The two possible shapes of `resample`'s return value: the input frame
with the added `t` column (no frequency), or the per-bucket means indexed
by the rounded timestamp. -/
inductive Resampled where
  | raw (rows : List SampleT)
  | bucketed (rows : List (Int × MeanRow))
deriving DecidableEq

/-- `resample(df, freq)` from data.py. -/
def resample (to_offset : String → Nat) (df : Series) (freq : Option String) :
    Resampled :=
  let rows := addTColumn df
  match freq with
  | none => .raw rows
  | some fr =>
    let delta := to_offset (translateFreq fr)
    .bucketed ((groupKeys delta rows).map (fun k =>
      let grp := rows.filter (fun r => decide (bucketOf delta r = k))
      (k, ⟨ratMean (grp.map (fun r => (r.data_time_us : Rat))),
           ratMean (grp.map (·.value_r)),
           ratMean (grp.map (fun r => (r.t : Rat)))⟩)))

/-- One reader of a cached historical day, as composed by `data.get_data`:
the per-day cache hit is returned through `get_attribute_data`, which
passes it through `pd.concat` (producing a fresh frame), and the reader
then resamples that copy.  The only cache-state effect is the
recently-used marking done by `SizeLimitedCache.get`. -/
def readerProcess (inst : SizeLimitedCache Series) (k : CacheKey)
    (to_offset : String → Nat) (freq : Option String)
    (s : CacheState CacheKey Series) :
    Option Resampled × CacheState CacheKey Series :=
  let r := inst.get k s
  (r.1.map (fun series => resample to_offset (concatSeries [series]) freq), r.2)

/-! ## Association-list lemmas -/

theorem assocLookup_mem_keys {K V : Type} [DecidableEq K] {l : List (K × V)}
    {k : K} {v : V} (h : assocLookup l k = some v) : k ∈ l.map (·.1) := by
  induction l with
  | nil => simp [assocLookup] at h
  | cons p rest ih =>
    obtain ⟨a, b⟩ := p
    by_cases hak : a = k
    · simp [hak]
    · simp only [assocLookup] at h
      rw [if_neg hak] at h
      simpa using Or.inr (ih h)

theorem lookup_eq_none_of_not_mem {K V : Type} [DecidableEq K]
    {l : List (K × V)} {k : K} (h : k ∉ l.map (·.1)) : assocLookup l k = none := by
  induction l with
  | nil => rfl
  | cons p rest ih =>
    obtain ⟨a, b⟩ := p
    simp only [List.map_cons, List.mem_cons] at h
    push_neg at h
    simp only [assocLookup]
    rw [if_neg (fun hh => h.1 hh.symm)]
    exact ih h.2

theorem assocLookup_append_of_some {K V : Type} [DecidableEq K]
    {l₁ l₂ : List (K × V)} {k : K} {v : V} (h : assocLookup l₁ k = some v) :
    assocLookup (l₁ ++ l₂) k = some v := by
  induction l₁ with
  | nil => simp [assocLookup] at h
  | cons p rest ih =>
    obtain ⟨a, b⟩ := p
    by_cases hak : a = k
    · simp only [assocLookup, if_pos hak] at h
      simp only [List.cons_append, assocLookup, if_pos hak]
      exact h
    · simp only [assocLookup] at h
      rw [if_neg hak] at h
      simp only [List.cons_append, assocLookup]
      rw [if_neg hak]
      exact ih h

theorem assocLookup_append_of_none {K V : Type} [DecidableEq K]
    {l₁ l₂ : List (K × V)} {k : K} (h : assocLookup l₁ k = none) :
    assocLookup (l₁ ++ l₂) k = assocLookup l₂ k := by
  induction l₁ with
  | nil => rfl
  | cons p rest ih =>
    obtain ⟨a, b⟩ := p
    by_cases hak : a = k
    · simp only [assocLookup, if_pos hak] at h
      exact absurd h (by simp)
    · simp only [assocLookup] at h
      rw [if_neg hak] at h
      simp only [List.cons_append, assocLookup]
      rw [if_neg hak]
      exact ih h

theorem keys_removeKey {K V : Type} [DecidableEq K] (k : K) (l : List (K × V)) :
    (removeKey k l).map (·.1) = (l.map (·.1)).filter (fun a => decide (a ≠ k)) := by
  induction l with
  | nil => rfl
  | cons p rest ih =>
    obtain ⟨a, b⟩ := p
    by_cases hak : a = k
    · simpa [removeKey, List.filter_cons, hak] using ih
    · simpa [removeKey, List.filter_cons, hak] using ih

theorem mem_keys_removeKey {K V : Type} [DecidableEq K] {k a : K}
    (l : List (K × V)) :
    a ∈ (removeKey k l).map (·.1) ↔ a ∈ l.map (·.1) ∧ a ≠ k := by
  rw [keys_removeKey]
  simp [List.mem_filter]

theorem nodup_keys_removeKey {K V : Type} [DecidableEq K] {k : K}
    {l : List (K × V)} (h : (l.map (·.1)).Nodup) :
    ((removeKey k l).map (·.1)).Nodup := by
  rw [keys_removeKey]
  exact h.filter _

theorem assocLookup_removeKey_self {K V : Type} [DecidableEq K] (k : K)
    (l : List (K × V)) : assocLookup (removeKey k l) k = none := by
  apply lookup_eq_none_of_not_mem
  rw [mem_keys_removeKey]
  simp

theorem assocLookup_removeKey_ne {K V : Type} [DecidableEq K] {k k' : K}
    (l : List (K × V)) (h : k' ≠ k) :
    assocLookup (removeKey k l) k' = assocLookup l k' := by
  induction l with
  | nil => rfl
  | cons p rest ih =>
    obtain ⟨a, b⟩ := p
    by_cases hak : a = k
    · rw [show removeKey k ((a, b) :: rest) = removeKey k rest by
        simp [removeKey, List.filter_cons, hak]]
      rw [ih]
      have hak' : ¬ a = k' := by rw [hak]; exact fun hh => h hh.symm
      simp only [assocLookup]
      rw [if_neg hak']
    · rw [show removeKey k ((a, b) :: rest) = (a, b) :: removeKey k rest by
        simp [removeKey, List.filter_cons, hak]]
      simp only [assocLookup]
      by_cases hak' : a = k'
      · rw [if_pos hak', if_pos hak']
      · rw [if_neg hak', if_neg hak']
        exact ih

theorem sizesSum_append {K : Type} (l₁ l₂ : List (K × Nat)) :
    sizesSum (l₁ ++ l₂) = sizesSum l₁ + sizesSum l₂ := by
  simp [sizesSum]

/-! ## Eviction-loop lemmas -/

theorem evictLoop_budget_or_empty {K V : Type} [DecidableEq K]
    (max_size size : Nat) (c : List (K × V)) (z : List (K × Nat)) :
    sizesSum (evictLoop max_size size c z).2 + size ≤ max_size
    ∨ (evictLoop max_size size c z).1 = [] := by
  induction c generalizing z with
  | nil =>
    rw [evictLoop]
    by_cases hcond : sizesSum z + size > max_size
    · rw [if_pos hcond]; right; rfl
    · rw [if_neg hcond]
      left
      change sizesSum z + size ≤ max_size
      omega
  | cons p rest ih =>
    obtain ⟨rn, rv⟩ := p
    rw [evictLoop]
    by_cases hcond : sizesSum z + size > max_size
    · rw [if_pos hcond]; exact ih (removeKey rn z)
    · rw [if_neg hcond]
      left
      change sizesSum z + size ≤ max_size
      omega

theorem evictLoop_cache_mem {K V : Type} [DecidableEq K]
    (max_size size : Nat) (c : List (K × V)) (z : List (K × Nat))
    {p : K × V} (hp : p ∈ (evictLoop max_size size c z).1) : p ∈ c := by
  induction c generalizing z with
  | nil =>
    rw [evictLoop] at hp
    by_cases hcond : sizesSum z + size > max_size
    · rw [if_pos hcond] at hp; simp at hp
    · rw [if_neg hcond] at hp; simp at hp
  | cons q rest ih =>
    obtain ⟨rn, rv⟩ := q
    rw [evictLoop] at hp
    by_cases hcond : sizesSum z + size > max_size
    · rw [if_pos hcond] at hp
      exact List.mem_cons_of_mem _ (ih (removeKey rn z) hp)
    · rw [if_neg hcond] at hp
      exact hp

/-- The states reachable by `SizeLimitedCache` keep `_cache` and `_sizes`
keyed by the same set of unique keys. -/
def KeysInv {K V : Type} (c : List (K × V)) (z : List (K × Nat)) : Prop :=
  (c.map (·.1)).Nodup ∧ (z.map (·.1)).Nodup
  ∧ ∀ a, a ∈ c.map (·.1) ↔ a ∈ z.map (·.1)

theorem keysInv_removeKey {K V : Type} [DecidableEq K] (k : K)
    {c : List (K × V)} {z : List (K × Nat)} (h : KeysInv c z) :
    KeysInv (removeKey k c) (removeKey k z) := by
  obtain ⟨h1, h2, h3⟩ := h
  refine ⟨nodup_keys_removeKey h1, nodup_keys_removeKey h2, fun a => ?_⟩
  rw [mem_keys_removeKey, mem_keys_removeKey, h3 a]

theorem keysInv_evictLoop {K V : Type} [DecidableEq K]
    (max_size size : Nat) (c : List (K × V)) (z : List (K × Nat))
    (h : KeysInv c z) :
    KeysInv (evictLoop max_size size c z).1 (evictLoop max_size size c z).2 := by
  induction c generalizing z with
  | nil =>
    rw [evictLoop]
    by_cases hcond : sizesSum z + size > max_size
    · rw [if_pos hcond]
      exact ⟨List.nodup_nil, h.2.1, h.2.2⟩
    · rw [if_neg hcond]; exact h
  | cons q rest ih =>
    obtain ⟨rn, rv⟩ := q
    rw [evictLoop]
    by_cases hcond : sizesSum z + size > max_size
    · rw [if_pos hcond]
      apply ih
      obtain ⟨h1, h2, h3⟩ := h
      simp only [List.map_cons, List.nodup_cons] at h1
      refine ⟨h1.2, nodup_keys_removeKey h2, fun a => ?_⟩
      rw [mem_keys_removeKey]
      constructor
      · intro ha
        refine ⟨(h3 a).1 (by simp [ha]), fun hak => ?_⟩
        exact h1.1 (hak ▸ ha)
      · rintro ⟨haz, hak⟩
        have := (h3 a).2 haz
        simp only [List.map_cons, List.mem_cons] at this
        exact this.resolve_left hak
    · rw [if_neg hcond]; exact h

/-! ## The cache invariant and the budget bound -/

/-- The invariant maintained by every `SizeLimitedCache` operation:
`_cache` and `_sizes` agree on their (unique) keys, and the recorded
total cost stays within the budget. -/
def CacheInv {K V : Type} (self : SizeLimitedCache V) (s : CacheState K V) :
    Prop :=
  KeysInv s.cache s.sizes ∧ sizesSum s.sizes ≤ self.max_size

theorem cacheInv_empty {K V : Type} (self : SizeLimitedCache V) :
    CacheInv self (CacheState.empty K V) := by
  refine ⟨⟨List.nodup_nil, List.nodup_nil, fun a => by simp [CacheState.empty]⟩, ?_⟩
  simp [sizesSum, CacheState.empty]

theorem cacheInv_set {K V : Type} [DecidableEq K] (self : SizeLimitedCache V)
    (k : K) (v : V) {s : CacheState K V} (h : CacheInv self s) :
    CacheInv self (self.set k v s) := by
  by_cases hsz : self.get_item_size v ≥ self.max_size
  · have hset : self.set k v s = s := by simp [SizeLimitedCache.set, hsz]
    rw [hset]; exact h
  · have hset : self.set k v s =
        ⟨(evictLoop self.max_size (self.get_item_size v) (removeKey k s.cache)
            (removeKey k s.sizes)).1 ++ [(k, v)],
         (evictLoop self.max_size (self.get_item_size v) (removeKey k s.cache)
            (removeKey k s.sizes)).2 ++ [(k, self.get_item_size v)]⟩ := by
      simp [SizeLimitedCache.set, hsz]
    rw [hset]
    have h1 : KeysInv (removeKey k s.cache) (removeKey k s.sizes) :=
      keysInv_removeKey k h.1
    have h2 := keysInv_evictLoop self.max_size (self.get_item_size v)
      (removeKey k s.cache) (removeKey k s.sizes) h1
    have h3 := evictLoop_budget_or_empty self.max_size (self.get_item_size v)
      (removeKey k s.cache) (removeKey k s.sizes)
    rcases hE : evictLoop self.max_size (self.get_item_size v) (removeKey k s.cache)
        (removeKey k s.sizes) with ⟨c2, z2⟩
    rw [hE] at h2 h3
    replace h2 : KeysInv c2 z2 := h2
    replace h3 : sizesSum z2 + self.get_item_size v ≤ self.max_size ∨ c2 = [] := h3
    have hkc : k ∉ c2.map (·.1) := by
      intro hk
      obtain ⟨p, hp, hpk⟩ := List.mem_map.1 hk
      have hmem : p ∈ removeKey k s.cache :=
        evictLoop_cache_mem self.max_size (self.get_item_size v)
          (removeKey k s.cache) (removeKey k s.sizes) (by rw [hE]; exact hp)
      have hkeys : p.1 ∈ (removeKey k s.cache).map (·.1) :=
        List.mem_map_of_mem _ hmem
      rw [mem_keys_removeKey] at hkeys
      exact hkeys.2 hpk
    have hkz : k ∉ z2.map (·.1) := fun hk => hkc ((h2.2.2 k).2 hk)
    constructor
    · show KeysInv (c2 ++ [(k, v)]) (z2 ++ [(k, self.get_item_size v)])
      refine ⟨?_, ?_, fun a => ?_⟩
      · rw [List.map_append, List.nodup_append]
        refine ⟨h2.1, List.nodup_singleton _, ?_⟩
        intro a ha hb
        simp only [List.map_cons, List.map_nil, List.mem_singleton] at hb
        exact hkc (hb ▸ ha)
      · rw [List.map_append, List.nodup_append]
        refine ⟨h2.2.1, List.nodup_singleton _, ?_⟩
        intro a ha hb
        simp only [List.map_cons, List.map_nil, List.mem_singleton] at hb
        exact hkz (hb ▸ ha)
      · simp only [List.map_append, List.mem_append, List.map_cons, List.map_nil,
          List.mem_singleton]
        rw [h2.2.2 a]
    · show sizesSum (z2 ++ [(k, self.get_item_size v)]) ≤ self.max_size
      rw [sizesSum_append]
      have hone : sizesSum [(k, self.get_item_size v)] = self.get_item_size v := by
        simp [sizesSum]
      rw [hone]
      rcases h3 with hb | hemp
      · omega
      · have hmapnil : z2.map (·.1) = [] := by
          rw [List.eq_nil_iff_forall_not_mem]
          intro a ha
          have hca := (h2.2.2 a).2 ha
          rw [hemp] at hca
          simp at hca
        have hz : z2 = [] := List.map_eq_nil_iff.1 hmapnil
        rw [hz]
        simp only [sizesSum, List.map_nil, List.sum_nil, Nat.zero_add]
        omega

theorem cacheInv_applySets {K V : Type} [DecidableEq K]
    (self : SizeLimitedCache V) (ops : List (K × V)) {s : CacheState K V}
    (h : CacheInv self s) : CacheInv self (applySets self ops s) := by
  induction ops generalizing s with
  | nil => exact h
  | cons op rest ih =>
    obtain ⟨k, v⟩ := op
    exact ih (cacheInv_set self k v h)

/-- Claim C3: for every sequence of `set` operations (with per-value costs
given by the caller-supplied `get_item_size`), the cache's reported `size`
— the sum of the recorded costs — never exceeds `max_size`; moreover the
recorded costs carry one entry per key (a prior entry for the same key is
removed first, so updates are not double-counted). -/
theorem cache_size_never_exceeds_budget {K V : Type} [DecidableEq K]
    (self : SizeLimitedCache V) (ops : List (K × V)) :
    self.size (applySets self ops (CacheState.empty K V)) ≤ self.max_size
    ∧ ((applySets self ops (CacheState.empty K V)).sizes.map (·.1)).Nodup := by
  have h := cacheInv_applySets self ops (cacheInv_empty self)
  exact ⟨h.2, h.1.2.1⟩

/-! ## LRU access order and no-op on oversize values -/

/-- Claim C7: `set(k, v)` with `cost(v) >= max_size` is a complete no-op:
the state (both `_cache` and `_sizes`, including any prior entry for `k`)
is returned unchanged, and no error is raised (the method simply
returns). -/
theorem oversize_set_noop {K V : Type} [DecidableEq K]
    (self : SizeLimitedCache V) (k : K) (v : V) (s : CacheState K V)
    (h : self.get_item_size v ≥ self.max_size) :
    self.set k v s = s := by
  simp [SizeLimitedCache.set, h]

theorem oversize_set_noop_witness :
    (SizeLimitedCache.init 5 (fun _ : Nat => 7)).get_item_size 0
        ≥ (SizeLimitedCache.init 5 (fun _ : Nat => 7)).max_size
    ∧ (SizeLimitedCache.init 5 (fun _ : Nat => 7)).set (1 : Nat) (0 : Nat)
        ⟨[(1, 9), (2, 8)], [(1, 3), (2, 3)]⟩
        = (⟨[(1, 9), (2, 8)], [(1, 3), (2, 3)]⟩ : CacheState Nat Nat) :=
  ⟨by decide, oversize_set_noop _ 1 0 _ (by decide)⟩

/-- Claim C6: eviction is strict LRU by access, not insertion: `get` on a
present key returns its value and moves the entry to the most-recently-used
end of the order; and concretely, after `set a; set b; get a; set c` with
costs forcing exactly one eviction, `b` is evicted while `a` (and `c`)
remain. -/
theorem lru_eviction_by_access {K V : Type} [DecidableEq K]
    (self : SizeLimitedCache V) (k : K) (v : V) (s : CacheState K V)
    (h : assocLookup s.cache k = some v) :
    ((self.get k s).1 = some v
      ∧ (self.get k s).2.cache = removeKey k s.cache ++ [(k, v)])
    ∧ (let i := SizeLimitedCache.init 10 (fun _ : Nat => 4)
       let s4 := i.set 3 33 ((i.get 1 (i.set 2 22 (i.set 1 11
         (CacheState.empty Nat Nat)))).2)
       s4.cache.map (·.1) = [1, 3]
       ∧ assocLookup s4.cache 2 = none
       ∧ assocLookup s4.cache 1 = some 11) := by
  constructor
  · constructor
    · simp [SizeLimitedCache.get, h]
    · simp [SizeLimitedCache.get, h]
  · decide

theorem lru_eviction_by_access_witness :
    assocLookup [((7 : Nat), (5 : Nat))] 7 = some 5
    ∧ ((((SizeLimitedCache.init 10 (fun _ : Nat => 4)).get 7
            (⟨[(7, 5)], [(7, 4)]⟩ : CacheState Nat Nat)).1 = some 5
        ∧ ((SizeLimitedCache.init 10 (fun _ : Nat => 4)).get 7
            (⟨[(7, 5)], [(7, 4)]⟩ : CacheState Nat Nat)).2.cache
              = removeKey 7 [(7, 5)] ++ [(7, 5)])
      ∧ (let i := SizeLimitedCache.init 10 (fun _ : Nat => 4)
         let s4 := i.set 3 33 ((i.get 1 (i.set 2 22 (i.set 1 11
           (CacheState.empty Nat Nat)))).2)
         s4.cache.map (·.1) = [1, 3]
         ∧ assocLookup s4.cache 2 = none
         ∧ assocLookup s4.cache 1 = some 11)) :=
  ⟨by decide, lru_eviction_by_access (SizeLimitedCache.init 10 (fun _ : Nat => 4))
    7 5 ⟨[(7, 5)], [(7, 4)]⟩ (by decide)⟩

/-! ## Bindings survive reads (historical entries are not mutated) -/

theorem get_hit_fst {K V : Type} [DecidableEq K] (self : SizeLimitedCache V)
    {k : K} {v : V} {s : CacheState K V} (h : assocLookup s.cache k = some v) :
    (self.get k s).1 = some v := by
  simp [SizeLimitedCache.get, h]

theorem get_preserves_binding {K V : Type} [DecidableEq K]
    (self : SizeLimitedCache V) (k : K) {k' : K} {v' : V} {s : CacheState K V}
    (h : assocLookup s.cache k' = some v') :
    assocLookup (self.get k s).2.cache k' = some v' := by
  cases hk : assocLookup s.cache k with
  | none => simp only [SizeLimitedCache.get, hk]; exact h
  | some v =>
    simp only [SizeLimitedCache.get, hk]
    by_cases hkk : k' = k
    · subst hkk
      have hv : some v = some v' := hk.symm.trans h
      injection hv with hv
      subst hv
      rw [assocLookup_append_of_none (assocLookup_removeKey_self k' s.cache)]
      simp [assocLookup]
    · exact assocLookup_append_of_some
        (by rw [assocLookup_removeKey_ne s.cache hkk]; exact h)

theorem applyGets_preserves_binding {K V : Type} [DecidableEq K]
    (self : SizeLimitedCache V) (ops : List K) {k' : K} {v' : V}
    {s : CacheState K V} (h : assocLookup s.cache k' = some v') :
    assocLookup (applyGets self ops s).cache k' = some v' := by
  induction ops generalizing s with
  | nil => exact h
  | cons k rest ih => exact ih (get_preserves_binding self k h)

/-- Claim C8: a cached series is never mutated in place: when an entry is
present, an early reader that retrieves it and pushes the retrieved value
through the downstream pipeline (`pd.concat` copy, then `resample`)
receives exactly the stored value, and after any further sequence of reads
every later reader still receives a value identical to the one inserted
(until an eviction, which only a `set` can cause). -/
theorem historical_entry_immutable (to_offset : String → Nat)
    (self : SizeLimitedCache Series) (k : CacheKey) (v : Series)
    (s : CacheState CacheKey Series) (freq : Option String)
    (ops : List CacheKey)
    (h : assocLookup s.cache k = some v) :
    (readerProcess self k to_offset freq s).1
        = some (resample to_offset (concatSeries [v]) freq)
    ∧ assocLookup (applyGets self ops
        (readerProcess self k to_offset freq s).2).cache k = some v
    ∧ (self.get k (applyGets self ops
        (readerProcess self k to_offset freq s).2)).1 = some v := by
  have hb : assocLookup (applyGets self ops
      (readerProcess self k to_offset freq s).2).cache k = some v :=
    applyGets_preserves_binding self ops (get_preserves_binding self k h)
  refine ⟨?_, hb, get_hit_fst self hb⟩
  simp [readerProcess, get_hit_fst self h]

/-! ## The backing stores are class attributes (shared across instances) -/

theorem evict_keys_not_self {K V : Type} [DecidableEq K]
    (max_size size : Nat) (k : K) (c : List (K × V)) (z : List (K × Nat)) :
    k ∉ (evictLoop max_size size (removeKey k c) z).1.map (·.1) := by
  intro hk
  obtain ⟨p, hp, hpk⟩ := List.mem_map.1 hk
  have hmem := evictLoop_cache_mem max_size size (removeKey k c) z hp
  have hkeys := List.mem_map_of_mem (fun x => x.1) hmem
  rw [mem_keys_removeKey] at hkeys
  exact hkeys.2 hpk

theorem set_then_lookup {K V : Type} [DecidableEq K]
    (self : SizeLimitedCache V) (k : K) (v : V) (s : CacheState K V)
    (h : self.get_item_size v < self.max_size) :
    assocLookup (self.set k v s).cache k = some v := by
  have hsz : ¬ self.get_item_size v ≥ self.max_size := not_le.mpr h
  have hset : self.set k v s =
      ⟨(evictLoop self.max_size (self.get_item_size v) (removeKey k s.cache)
          (removeKey k s.sizes)).1 ++ [(k, v)],
       (evictLoop self.max_size (self.get_item_size v) (removeKey k s.cache)
          (removeKey k s.sizes)).2 ++ [(k, self.get_item_size v)]⟩ := by
    simp [SizeLimitedCache.set, hsz]
  rw [hset]
  show assocLookup ((evictLoop self.max_size (self.get_item_size v)
      (removeKey k s.cache) (removeKey k s.sizes)).1 ++ [(k, v)]) k = some v
  rw [assocLookup_append_of_none (lookup_eq_none_of_not_mem
    (evict_keys_not_self self.max_size (self.get_item_size v) k s.cache
      (removeKey k s.sizes)))]
  simp [assocLookup]

/-- Claim C9: `_cache = OrderedDict()` and `_sizes = {}` are class-level
attributes of `SizeLimitedCache`, initialised once when the class body
runs; every instance mutates the same stores.  In the embedding the shared
stores are the explicit `CacheState` and `SizeLimitedCache.init` does not
take or produce one, so: a `set` performed through one instance is
observable via `get` through any other instance, the `size` reported by
any instance (including one constructed afterwards) is the same, and after
a `set` of a positive-cost value through one instance a freshly
constructed instance does not report an empty cache. -/
theorem cache_state_shared_across_instances {K V : Type} [DecidableEq K]
    (i1 i2 : SizeLimitedCache V) (m : Nat) (g : V → Nat) (k : K) (v : V)
    (s : CacheState K V) (h : i1.get_item_size v < i1.max_size) :
    (SizeLimitedCache.get i2 k (i1.set k v s)).1 = some v
    ∧ SizeLimitedCache.size i2 (i1.set k v s)
        = SizeLimitedCache.size i1 (i1.set k v s)
    ∧ SizeLimitedCache.size (SizeLimitedCache.init m g) (i1.set k v s)
        = SizeLimitedCache.size i1 (i1.set k v s)
    ∧ (0 < i1.get_item_size v →
        0 < SizeLimitedCache.size (SizeLimitedCache.init m g)
              (i1.set k v (CacheState.empty K V))) := by
  refine ⟨?_, rfl, rfl, ?_⟩
  · exact get_hit_fst i2 (set_then_lookup i1 k v s h)
  · intro hpos
    have hsz : ¬ i1.get_item_size v ≥ i1.max_size := not_le.mpr h
    have hlt : ¬ i1.max_size < i1.get_item_size v := not_lt.mpr h.le
    have hset0 : i1.set k v (CacheState.empty K V)
        = ⟨[(k, v)], [(k, i1.get_item_size v)]⟩ := by
      simp [SizeLimitedCache.set, hsz, CacheState.empty, removeKey, evictLoop,
        sizesSum, hlt]
    rw [hset0]
    simpa [SizeLimitedCache.size, sizesSum] using hpos

theorem cache_state_shared_across_instances_witness :
    (SizeLimitedCache.init 10 (fun _ : Nat => 3)).get_item_size 42
        < (SizeLimitedCache.init 10 (fun _ : Nat => 3)).max_size
    ∧ ((SizeLimitedCache.get (SizeLimitedCache.init 999 (fun _ : Nat => 0)) 5
          ((SizeLimitedCache.init 10 (fun _ : Nat => 3)).set (5 : Nat) (42 : Nat)
            (CacheState.empty Nat Nat))).1 = some 42
      ∧ SizeLimitedCache.size (SizeLimitedCache.init 999 (fun _ : Nat => 0))
          ((SizeLimitedCache.init 10 (fun _ : Nat => 3)).set (5 : Nat) (42 : Nat)
            (CacheState.empty Nat Nat))
          = SizeLimitedCache.size (SizeLimitedCache.init 10 (fun _ : Nat => 3))
          ((SizeLimitedCache.init 10 (fun _ : Nat => 3)).set (5 : Nat) (42 : Nat)
            (CacheState.empty Nat Nat))
      ∧ SizeLimitedCache.size (SizeLimitedCache.init 7 (fun _ : Nat => 1))
          ((SizeLimitedCache.init 10 (fun _ : Nat => 3)).set (5 : Nat) (42 : Nat)
            (CacheState.empty Nat Nat))
          = SizeLimitedCache.size (SizeLimitedCache.init 10 (fun _ : Nat => 3))
          ((SizeLimitedCache.init 10 (fun _ : Nat => 3)).set (5 : Nat) (42 : Nat)
            (CacheState.empty Nat Nat))
      ∧ (0 < (SizeLimitedCache.init 10 (fun _ : Nat => 3)).get_item_size 42 →
          0 < SizeLimitedCache.size (SizeLimitedCache.init 7 (fun _ : Nat => 1))
                ((SizeLimitedCache.init 10 (fun _ : Nat => 3)).set (5 : Nat)
                  (42 : Nat) (CacheState.empty Nat Nat)))) :=
  ⟨by decide, cache_state_shared_across_instances
    (SizeLimitedCache.init 10 (fun _ : Nat => 3))
    (SizeLimitedCache.init 999 (fun _ : Nat => 0)) 7 (fun _ => 1) 5 42
    (CacheState.empty Nat Nat) (by decide)⟩

/-! ## Concrete data used in the closed instances below -/

/-- A sample in the whole second 1 (timestamps in nanoseconds). -/
def sampleA : Sample := ⟨1000000000, 0, 1, none⟩

/-- A sample in the whole second 2 (the second of the cached maximum). -/
def sampleB : Sample := ⟨2000000000, 500000, 2, none⟩

/-- A fresh sample in the same whole second as `sampleB`. -/
def sampleC : Sample := ⟨2000000000, 700000, 3, none⟩

/-- A fresh sample in the whole second 3. -/
def sampleD : Sample := ⟨3000000000, 0, 4, none⟩

/-- A concrete connection cache: the budget and the pandas byte-cost model
(`get_item_size=lambda df: df.memory_usage().sum()`, here approximated per
row, which is all the claims depend on). -/
def inst0 : SizeLimitedCache Series :=
  SizeLimitedCache.init 1000000 (fun df => 100 * df.length + 80)

/-- A cache state whose today entry (day 0 for `c/a`) holds
`[sampleA, sampleB]`. -/
def state0 : CacheState CacheKey Series :=
  ⟨[(("c", "a", 0), [sampleA, sampleB])], [(("c", "a", 0), 280)]⟩

/-- A database that answers the `data_after` query at the expected lower
bound with `[sampleC, sampleD]` and everything else with an empty frame. -/
def fetch0 : Fetch String := fun _ af =>
  match af with
  | some t => if t = 2000000000 then Except.ok [sampleC, sampleD] else Except.ok []
  | none => Except.ok []

/-- A concrete historical cache key. -/
def keyH : CacheKey := ("c", "a", 5)

/-- A concrete cache state holding `[sampleA]` under `keyH`. -/
def stateH : CacheState CacheKey Series :=
  ⟨[(keyH, [sampleA])], [(keyH, 180)]⟩

/-- A trivial concrete stand-in for `pandas.tseries.frequencies.to_offset`. -/
def toOffset1 : String → Nat := fun _ => 1

theorem historical_entry_immutable_witness :
    assocLookup stateH.cache keyH = some [sampleA]
    ∧ ((readerProcess inst0 keyH toOffset1 none stateH).1
        = some (resample toOffset1 (concatSeries [[sampleA]]) none)
      ∧ assocLookup (applyGets inst0 [keyH]
          (readerProcess inst0 keyH toOffset1 none stateH).2).cache keyH
          = some [sampleA]
      ∧ (inst0.get keyH (applyGets inst0 [keyH]
          (readerProcess inst0 keyH toOffset1 none stateH).2)).1
          = some [sampleA]) :=
  ⟨by decide, historical_entry_immutable toOffset1 inst0 keyH
    [sampleA] stateH none [keyH] (by decide)⟩

/-! ## The live-day merge: truncation keeps cached and fresh rows disjoint -/

/-- Claim C1: in the live-day merge, with a non-empty cached series `C` and
a fresh result `R` produced by the server-side filter `data_time >=
latest_sec` (the whole second of `C`'s maximum timestamp), the merge
returns `C_trunc ++ R` where `C_trunc` drops every cached row at or after
`latest_sec`; `C_trunc` and `R` are disjoint when keyed by `(data_time,
data_time_us)`, so if each side has unique keys the concatenation has no
duplicate key. -/
theorem live_day_merge_disjoint {E : Type} (inst : SizeLimitedCache Series)
    (today : Int) (cs attr : String) (fetch : Fetch E)
    (s : CacheState CacheKey Series) (C R : Series)
    (hC : assocLookup s.cache (cs, attr, today) = some C)
    (hne : C ≠ [])
    (hfetch : fetch today (some (latestSec C)) = Except.ok R)
    (hR : ∀ r ∈ R, latestSec C ≤ r.data_time) :
    (getAttributePeriodToday inst today cs attr fetch s).1
        = FutState.res (truncateCached C ++ R)
    ∧ (∀ x ∈ truncateCached C, ∀ y ∈ R,
        (x.data_time, x.data_time_us) ≠ (y.data_time, y.data_time_us))
    ∧ (((truncateCached C).map (fun p => (p.data_time, p.data_time_us))).Nodup →
       (R.map (fun p => (p.data_time, p.data_time_us))).Nodup →
       ((truncateCached C ++ R).map
          (fun p => (p.data_time, p.data_time_us))).Nodup) := by
  have hxlt : ∀ x ∈ truncateCached C, x.data_time < latestSec C := by
    intro x hx
    simp only [truncateCached, List.mem_filter] at hx
    exact of_decide_eq_true hx.2
  have hdisj : ∀ x ∈ truncateCached C, ∀ y ∈ R,
      (x.data_time, x.data_time_us) ≠ (y.data_time, y.data_time_us) := by
    intro x hx y hy hEq
    have h1 := hxlt x hx
    have h2 := hR y hy
    have h3 : x.data_time = y.data_time := congrArg Prod.fst hEq
    omega
  refine ⟨?_, hdisj, ?_⟩
  · have hget : inst.get (cs, attr, today) s = (some C,
        ⟨removeKey (cs, attr, today) s.cache ++ [((cs, attr, today), C)],
         s.sizes⟩) := by
      simp [SizeLimitedCache.get, hC]
    have hne' : C.isEmpty = false := by
      cases C with
      | nil => exact absurd rfl hne
      | cons a l => rfl
    simp [getAttributePeriodToday, hget, hne', hfetch]
  · intro h1 h2
    rw [List.map_append, List.nodup_append]
    refine ⟨h1, h2, ?_⟩
    intro a ha hb
    obtain ⟨x, hx, hxa⟩ := List.mem_map.1 ha
    obtain ⟨y, hy, hya⟩ := List.mem_map.1 hb
    exact hdisj x hx y hy (hxa.trans hya.symm)

theorem live_day_merge_disjoint_witness :
    assocLookup state0.cache ("c", "a", 0) = some [sampleA, sampleB]
    ∧ [sampleA, sampleB] ≠ ([] : Series)
    ∧ fetch0 0 (some (latestSec [sampleA, sampleB]))
        = Except.ok [sampleC, sampleD]
    ∧ (∀ r ∈ [sampleC, sampleD], latestSec [sampleA, sampleB] ≤ r.data_time)
    ∧ ((getAttributePeriodToday inst0 0 "c" "a" fetch0 state0).1
        = FutState.res (truncateCached [sampleA, sampleB] ++ [sampleC, sampleD])
      ∧ (∀ x ∈ truncateCached [sampleA, sampleB], ∀ y ∈ [sampleC, sampleD],
          (x.data_time, x.data_time_us) ≠ (y.data_time, y.data_time_us))
      ∧ (((truncateCached [sampleA, sampleB]).map
            (fun p => (p.data_time, p.data_time_us))).Nodup →
         (([sampleC, sampleD] : Series).map
            (fun p => (p.data_time, p.data_time_us))).Nodup →
         ((truncateCached [sampleA, sampleB] ++ [sampleC, sampleD]).map
            (fun p => (p.data_time, p.data_time_us))).Nodup)) :=
  ⟨by decide, by decide, rfl, by decide,
    live_day_merge_disjoint inst0 0 "c" "a" fetch0 state0
      [sampleA, sampleB] [sampleC, sampleD]
      (by decide) (by decide) rfl (by decide)⟩

/-- Claim C2 (code bug): `_get_attribute_period_today` never writes the
cache.  On an empty cache a successful today fetch returns the result but
leaves the state without any entry for `(cs, attr, today)`; and in the
merge case the state keeps the old cached series instead of being replaced
by the concatenation (the only state effect is `get`'s recently-used
marking). -/
theorem today_fetch_never_caches :
    (getAttributePeriodToday (E := String) inst0 0 "c" "a"
        (fun _ _ => Except.ok [sampleA]) (CacheState.empty CacheKey Series))
      = (FutState.res [sampleA], CacheState.empty CacheKey Series)
    ∧ assocLookup ((getAttributePeriodToday (E := String) inst0 0 "c" "a"
        fetch0 state0).2).cache ("c", "a", 0) = some [sampleA, sampleB]
    ∧ (getAttributePeriodToday (E := String) inst0 0 "c" "a"
        fetch0 state0).1
      = FutState.res (truncateCached [sampleA, sampleB] ++ [sampleC, sampleD]) :=
  ⟨by decide, by decide, by decide⟩

/-! ## The retry adapter ignores its configured maximum -/

/-- A driver function that fails with a timeout on its first three
invocations and succeeds from the fourth on. -/
def retryDemo : Nat → Except String Nat :=
  fun i => if i < 3 then Except.error "timeout" else Except.ok 42

/-- Claim C5 (code bug): `retry_future.__init__(self, max_retries)` is
`self.max_retries = 5` — the constructor argument is discarded.  With a
configured maximum of 2 attempts and a function failing on its first three
invocations, the claim predicts completion with the last error after two
attempts; the code instead retries up to the hard-wired 5 attempts and
completes with the success of the fourth invocation. -/
theorem retry_ignores_configured_max :
    retryFutureCall 2 retryDemo = Except.ok 42
    ∧ (RetryFuture.init 2).max_retries = 5 := by
  refine ⟨?_, rfl⟩
  simp [retryFutureCall, RetryFuture.init, resolveOrRetry, retryDemo]

/-! ## Gather and chunking lemmas -/

theorem firstErr_append {E A : Type} (l₁ l₂ : List (FutState E A)) :
    firstErr (l₁ ++ l₂)
      = match firstErr l₁ with
        | some e => some e
        | none => firstErr l₂ := by
  induction l₁ with
  | nil => rfl
  | cons f rest ih =>
    cases f with
    | res a => simpa [firstErr] using ih
    | err e => rfl
    | pending => simpa [firstErr] using ih

theorem isPending_eq_true_iff {E A : Type} (f : FutState E A) :
    f.isPending = true ↔ f = FutState.pending := by
  cases f <;> simp [FutState.isPending]

theorem resOf_filterMap_map {E A : Type} (rs : List A) :
    (rs.map (FutState.res (E := E))).filterMap FutState.resOf = rs := by
  induction rs with
  | nil => rfl
  | cons r rest ih =>
    show r :: (rest.map (FutState.res (E := E))).filterMap FutState.resOf
        = r :: rest
    rw [ih]

theorem firstErr_map_res {E A : Type} (rs : List A) :
    firstErr (rs.map (FutState.res (E := E))) = none := by
  induction rs with
  | nil => rfl
  | cons r rest ih =>
    rw [List.map_cons]
    show firstErr (rest.map FutState.res) = none
    exact ih

theorem any_isPending_map_res {E A : Type} (rs : List A) :
    (rs.map (FutState.res (E := E))).any FutState.isPending = false := by
  induction rs with
  | nil => rfl
  | cons r rest ih =>
    rw [List.map_cons, List.any_cons, ih]
    rfl

theorem gatherChunk_map_res {E A : Type} (rs : List A) :
    gatherChunk (rs.map (FutState.res (E := E))) = FutState.res rs := by
  rw [gatherChunk, firstErr_map_res]
  show (if (rs.map (FutState.res (E := E))).any FutState.isPending = true
      then FutState.pending
      else FutState.res ((rs.map FutState.res).filterMap FutState.resOf))
      = FutState.res rs
  rw [any_isPending_map_res]
  show FutState.res ((rs.map (FutState.res (E := E))).filterMap FutState.resOf)
      = FutState.res rs
  rw [resOf_filterMap_map]

theorem awaitChunks_cons_err {E A : Type} {c : List (FutState E A)}
    {rest : List (List (FutState E A))} {e : E}
    (h : gatherChunk c = FutState.err e) :
    awaitChunks (c :: rest) = FutState.err e := by
  simp only [awaitChunks, h]

theorem awaitChunks_cons_res {E A : Type} {c : List (FutState E A)}
    {rest : List (List (FutState E A))} {rs : List A}
    (h : gatherChunk c = FutState.res rs) :
    awaitChunks (c :: rest)
      = match awaitChunks rest with
        | FutState.err e => FutState.err e
        | FutState.pending => FutState.pending
        | FutState.res more => FutState.res (rs ++ more) := by
  simp only [awaitChunks, h]

theorem awaitChunks_chunker_map_res {E A : Type} (n : Nat) :
    ∀ (m : Nat) (rs : List A), rs.length ≤ m →
      awaitChunks (chunker (rs.map (FutState.res (E := E))) (n + 1))
        = FutState.res rs := by
  intro m
  induction m with
  | zero =>
    intro rs hlen
    have hnil : rs = [] := List.length_eq_zero.1 (Nat.le_zero.1 hlen)
    subst hnil
    simp [chunker, awaitChunks]
  | succ m ih =>
    intro rs hlen
    cases rs with
    | nil => simp [chunker, awaitChunks]
    | cons r rest =>
      have hcons : (r :: rest).map (FutState.res (E := E))
          = FutState.res r :: rest.map FutState.res := rfl
      have htake : (FutState.res r :: rest.map (FutState.res (E := E))).take (n + 1)
          = ((r :: rest).take (n + 1)).map FutState.res := by
        rw [← hcons, ← List.map_take]
      have hdrop : (FutState.res r :: rest.map (FutState.res (E := E))).drop (n + 1)
          = ((r :: rest).drop (n + 1)).map FutState.res := by
        rw [← hcons, ← List.map_drop]
      have hlen' : ((r :: rest).drop (n + 1)).length ≤ m := by
        rw [List.length_drop]
        simp only [List.length_cons] at hlen ⊢
        omega
      rw [hcons, chunker, htake, hdrop]
      rw [awaitChunks_cons_res (gatherChunk_map_res ((r :: rest).take (n + 1)))]
      rw [ih ((r :: rest).drop (n + 1)) hlen']
      show FutState.res ((r :: rest).take (n + 1) ++ (r :: rest).drop (n + 1))
          = FutState.res (r :: rest)
      rw [List.take_append_drop]

theorem awaitChunks_chunker50_map_res {E A : Type} (rs : List A) :
    awaitChunks (chunker (rs.map (FutState.res (E := E))) 50) = FutState.res rs :=
  awaitChunks_chunker_map_res 49 rs.length rs le_rfl

theorem awaitChunks_chunker_err {E A : Type} (n : Nat) (e : E) :
    ∀ (m : Nat) (l : List (FutState E A)), l.length ≤ m →
      (∀ f ∈ l, f ≠ FutState.pending) → firstErr l = some e →
      awaitChunks (chunker l (n + 1)) = FutState.err e := by
  intro m
  induction m with
  | zero =>
    intro l hlen _ hfe
    have hnil : l = [] := List.length_eq_zero.1 (Nat.le_zero.1 hlen)
    subst hnil
    simp [firstErr] at hfe
  | succ m ih =>
    intro l hlen hnp hfe
    cases l with
    | nil => simp [firstErr] at hfe
    | cons x xs =>
      have hsplit := firstErr_append ((x :: xs).take (n + 1)) ((x :: xs).drop (n + 1))
      rw [List.take_append_drop, hfe] at hsplit
      rw [chunker]
      cases hft : firstErr ((x :: xs).take (n + 1)) with
      | some e2 =>
        rw [hft] at hsplit
        simp only at hsplit
        have he2 : e2 = e := by
          have h' := hsplit.symm
          injection h'
        subst he2
        have hg : gatherChunk ((x :: xs).take (n + 1)) = FutState.err e2 := by
          rw [gatherChunk, hft]
        exact awaitChunks_cons_err hg
      | none =>
        rw [hft] at hsplit
        simp only at hsplit
        have hfe_drop : firstErr ((x :: xs).drop (n + 1)) = some e := hsplit.symm
        have hnp_take : ∀ f ∈ (x :: xs).take (n + 1), f ≠ FutState.pending :=
          fun f hf => hnp f (List.mem_of_mem_take hf)
        have hany : ((x :: xs).take (n + 1)).any FutState.isPending = false := by
          rw [List.any_eq_false]
          intro f hf hp
          exact hnp_take f hf ((isPending_eq_true_iff f).1 hp)
        have hg : gatherChunk ((x :: xs).take (n + 1))
            = FutState.res (((x :: xs).take (n + 1)).filterMap FutState.resOf) := by
          rw [gatherChunk, hft, hany]
          simp only [Bool.false_eq_true, if_false]
        have hnp_drop : ∀ f ∈ (x :: xs).drop (n + 1), f ≠ FutState.pending :=
          fun f hf => hnp f (List.mem_of_mem_drop hf)
        have hlen' : ((x :: xs).drop (n + 1)).length ≤ m := by
          rw [List.length_drop]
          simp only [List.length_cons] at hlen ⊢
          omega
        rw [awaitChunks_cons_res hg]
        rw [ih _ hlen' hnp_drop hfe_drop]

theorem awaitChunks_chunker50_err {E A : Type} {l : List (FutState E A)} {e : E}
    (hnp : ∀ f ∈ l, f ≠ FutState.pending) (hfe : firstErr l = some e) :
    awaitChunks (chunker l 50) = FutState.err e :=
  awaitChunks_chunker_err 49 e l.length l le_rfl hnp hfe

/-! ## Per-day runs with a healthy database -/

theorem runPeriods_length {E : Type} (inst : SizeLimitedCache Series)
    (today : Int) (cs attr : String) (fetch : Fetch E) :
    ∀ (ps : List Int) (s : CacheState CacheKey Series),
      ((runPeriods inst today cs attr fetch ps s).1).length = ps.length := by
  intro ps
  induction ps with
  | nil => intro s; rfl
  | cons p rest ih => intro s; simp [runPeriods, ih]

theorem getAttributePeriod_ok {E : Type} (inst : SizeLimitedCache Series)
    (today : Int) (cs attr : String) (p : Int)
    (g : Int → Option Nat → Series) (s : CacheState CacheKey Series) :
    ∃ r, (getAttributePeriod (E := E) inst today cs attr p
        (fun q a => Except.ok (g q a)) s).1 = FutState.res r := by
  by_cases hp : p = today
  · subst hp
    cases hget : assocLookup s.cache (cs, attr, p) with
    | none =>
      exact ⟨g p none, by
        simp [getAttributePeriod, getAttributePeriodToday, SizeLimitedCache.get,
          hget, futOfExcept]⟩
    | some cached =>
      by_cases hemp : cached.isEmpty
      · exact ⟨g p none, by
          simp [getAttributePeriod, getAttributePeriodToday, SizeLimitedCache.get,
            hget, hemp, futOfExcept]⟩
      · exact ⟨truncateCached cached ++ g p (some (latestSec cached)), by
          simp [getAttributePeriod, getAttributePeriodToday, SizeLimitedCache.get,
            hget, hemp, futOfExcept]⟩
  · cases hget : assocLookup s.cache (cs, attr, p) with
    | some result =>
      exact ⟨result, by simp [getAttributePeriod, hp, SizeLimitedCache.get, hget]⟩
    | none =>
      by_cases hlt : p < today
      · exact ⟨g p none, by
          simp [getAttributePeriod, hp, SizeLimitedCache.get, hget, hlt]⟩
      · exact ⟨g p none, by
          simp [getAttributePeriod, hp, SizeLimitedCache.get, hget, hlt]⟩

theorem runPeriods_all_res {E : Type} (inst : SizeLimitedCache Series)
    (today : Int) (cs attr : String) (g : Int → Option Nat → Series) :
    ∀ (ps : List Int) (s : CacheState CacheKey Series),
      ∃ rs : List Series,
        (runPeriods (E := E) inst today cs attr
          (fun q a => Except.ok (g q a)) ps s).1 = rs.map FutState.res := by
  intro ps
  induction ps with
  | nil => intro s; exact ⟨[], rfl⟩
  | cons p rest ih =>
    intro s
    obtain ⟨r, hr⟩ := getAttributePeriod_ok (E := E) inst today cs attr p g s
    obtain ⟨rs, hrs⟩ := ih ((getAttributePeriod inst today cs attr p
      (fun q a => Except.ok (g q a)) s).2)
    refine ⟨r :: rs, ?_⟩
    have hstep : (runPeriods (E := E) inst today cs attr
        (fun q a => Except.ok (g q a)) (p :: rest) s).1
        = (getAttributePeriod inst today cs attr p
            (fun q a => Except.ok (g q a)) s).1
          :: (runPeriods inst today cs attr (fun q a => Except.ok (g q a)) rest
              ((getAttributePeriod inst today cs attr p
                (fun q a => Except.ok (g q a)) s).2)).1 := rfl
    rw [hstep, hr, hrs, List.map_cons]

theorem periodsList_eq_nil_iff (d0 d1 : Int) :
    periodsList d0 d1 = [] ↔ d1 < d0 := by
  rw [periodsList, List.map_eq_nil_iff, List.range_eq_nil, Int.toNat_eq_zero]
  omega

/-! ## Error propagation (corrected for the live-day merge) -/

/-- Claim C4 (corrected): a failed per-day fetch surfaces through the
awaitable returned by `get_attribute_period` — the error completes the
awaitable for every historical or future period and for today when the
cache has no (or an empty) today entry; but NOT on the live-day merge
path: with a cached non-empty today series, the fetch error is raised
inside the result callback and the returned awaitable never completes.
`gather` over the per-day awaitables, and with it `get_attribute_data`,
fails with the first per-day error whenever no per-day awaitable is left
forever pending. -/
theorem error_propagation_amended {E : Type} (inst : SizeLimitedCache Series)
    (today : Int) (cs attr : String) (fetch : Fetch E)
    (s : CacheState CacheKey Series) :
    (∀ (p : Int) (e : E), p ≠ today →
      assocLookup s.cache (cs, attr, p) = none →
      fetch p none = Except.error e →
      (getAttributePeriod inst today cs attr p fetch s).1 = FutState.err e)
    ∧ (∀ e : E, (assocLookup s.cache (cs, attr, today) = none
          ∨ assocLookup s.cache (cs, attr, today) = some ([] : Series)) →
      fetch today none = Except.error e →
      (getAttributePeriod inst today cs attr today fetch s).1 = FutState.err e)
    ∧ (∀ (C : Series) (e : E),
      assocLookup s.cache (cs, attr, today) = some C → C ≠ [] →
      fetch today (some (latestSec C)) = Except.error e →
      (getAttributePeriod inst today cs attr today fetch s).1 = FutState.pending)
    ∧ (∀ (d0 d1 : Int) (e : E),
      (∀ f ∈ (runPeriods inst today cs attr fetch (periodsList d0 d1) s).1,
        f ≠ FutState.pending) →
      firstErr (runPeriods inst today cs attr fetch (periodsList d0 d1) s).1
        = some e →
      (getAttributeData inst today cs attr fetch d0 d1 s).1 = FutState.err e) := by
  refine ⟨?_, ?_, ?_, ?_⟩
  · intro p e hp hmiss herr
    simp [getAttributePeriod, hp, SizeLimitedCache.get, hmiss, herr]
  · intro e hcase herr
    rcases hcase with hmiss | hempty
    · simp [getAttributePeriod, getAttributePeriodToday, SizeLimitedCache.get,
        hmiss, herr, futOfExcept]
    · simp [getAttributePeriod, getAttributePeriodToday, SizeLimitedCache.get,
        hempty, herr, futOfExcept]
  · intro C e hC hne herr
    have hne' : C.isEmpty = false := by
      cases C with
      | nil => exact absurd rfl hne
      | cons a l => rfl
    simp [getAttributePeriod, getAttributePeriodToday, SizeLimitedCache.get,
      hC, hne', herr]
  · intro d0 d1 e hnp hfe
    have h := awaitChunks_chunker50_err hnp hfe
    simp only [getAttributeData, h]

theorem error_propagation_amended_witness :
    ((-1 : Int) ≠ (0 : Int))
    ∧ assocLookup (CacheState.empty CacheKey Series).cache ("c", "a", -1) = none
    ∧ (fun (_ : Int) (_ : Option Nat) =>
        (Except.error "boom" : Except String Series)) (-1) none
        = Except.error "boom"
    ∧ (getAttributePeriod (E := String) inst0 0 "c" "a" (-1)
        (fun _ _ => Except.error "boom") (CacheState.empty CacheKey Series)).1
      = FutState.err "boom" :=
  ⟨by decide, rfl, rfl,
    (error_propagation_amended inst0 0 "c" "a" (fun _ _ => Except.error "boom")
      (CacheState.empty CacheKey Series)).1 (-1) "boom" (by decide) rfl rfl⟩

/-- Claim C4 counterexample: with a cached non-empty today series and a
failing fetch, the awaitable returned by `get_attribute_period` for today
does not complete with the error — it never completes at all
(`fut_.result()` raises inside the unguarded done-callback, so
`fut.set_result` is never executed). -/
theorem error_swallowed_on_merge_path :
    (getAttributePeriod (E := String) inst0 0 "c" "a" 0
        (fun _ _ => Except.error "timeout") state0).1 = FutState.pending
    ∧ (getAttributePeriod (E := String) inst0 0 "c" "a" 0
        (fun _ _ => Except.error "timeout") state0).1
      ≠ FutState.err "timeout" :=
  ⟨by decide, by decide⟩

/-! ## The shape of `get_attribute_data`'s result -/

/-- Claim C10: with a healthy database, `get_attribute_data` falls off the
function (returns `None`) exactly when the enumerated period list is empty,
i.e. exactly when the end day is strictly before the start day; in every
other case it returns the concatenation of the per-day results in period
order. -/
theorem gad_result_shape {E : Type} (inst : SizeLimitedCache Series)
    (today : Int) (cs attr : String) (g : Int → Option Nat → Series)
    (d0 d1 : Int) (s : CacheState CacheKey Series) :
    ((getAttributeData (E := E) inst today cs attr
        (fun p a => Except.ok (g p a)) d0 d1 s).1
      = FutState.res none ↔ d1 < d0)
    ∧ (d0 ≤ d1 →
      (getAttributeData (E := E) inst today cs attr
          (fun p a => Except.ok (g p a)) d0 d1 s).1
        = FutState.res (some (concatSeries
            ((runPeriods (E := E) inst today cs attr
              (fun p a => Except.ok (g p a))
              (periodsList d0 d1) s).1.filterMap FutState.resOf)))) := by
  obtain ⟨rs, hrs⟩ := runPeriods_all_res (E := E) inst today cs attr g
    (periodsList d0 d1) s
  have hawait : awaitChunks (chunker (runPeriods (E := E) inst today cs attr
      (fun p a => Except.ok (g p a)) (periodsList d0 d1) s).1 50)
      = FutState.res rs := by
    rw [hrs]
    exact awaitChunks_chunker50_map_res rs
  have hfm : ((runPeriods (E := E) inst today cs attr
      (fun p a => Except.ok (g p a)) (periodsList d0 d1) s).1).filterMap
        FutState.resOf = rs := by
    rw [hrs]
    exact resOf_filterMap_map rs
  have hlen : rs.length = (periodsList d0 d1).length := by
    have h := runPeriods_length (E := E) inst today cs attr
      (fun p a => Except.ok (g p a)) (periodsList d0 d1) s
    rw [hrs] at h
    rw [← h, List.length_map]
  have hgad : (getAttributeData (E := E) inst today cs attr
      (fun p a => Except.ok (g p a)) d0 d1 s).1
      = if rs.isEmpty then FutState.res none
        else FutState.res (some (concatSeries rs)) := by
    simp only [getAttributeData, hawait]
  constructor
  · rw [hgad]
    by_cases he : rs.isEmpty
    · rw [if_pos he]
      have hrs0 : rs = [] := by
        cases rs with
        | nil => rfl
        | cons a l => simp [List.isEmpty] at he
      have hplen : periodsList d0 d1 = [] := by
        have h0 : (periodsList d0 d1).length = 0 := by
          rw [← hlen, hrs0]
          rfl
        exact List.length_eq_zero.1 h0
      have hlt : d1 < d0 := (periodsList_eq_nil_iff d0 d1).1 hplen
      simp [hlt]
    · rw [if_neg he]
      constructor
      · intro hcontra
        have : (some (concatSeries rs) : Option Series) = none := by
          injection hcontra
        exact absurd this (by simp)
      · intro hlt
        exfalso
        have hplen : periodsList d0 d1 = [] := (periodsList_eq_nil_iff d0 d1).2 hlt
        have h0 : rs.length = 0 := by rw [hlen, hplen]; rfl
        have hrs0 : rs = [] := List.length_eq_zero.1 h0
        rw [hrs0] at he
        exact he rfl
  · intro hle
    rw [hgad, hfm]
    have hne : rs ≠ [] := by
      intro hrs0
      have hplen : (periodsList d0 d1).length = 0 := by
        rw [← hlen, hrs0]
        rfl
      have hlt := (periodsList_eq_nil_iff d0 d1).1 (List.length_eq_zero.1 hplen)
      omega
    have he : rs.isEmpty = false := by
      cases rs with
      | nil => exact absurd rfl hne
      | cons a l => rfl
    rw [he]
    simp only [Bool.false_eq_true, if_false]

theorem gad_result_shape_witness :
    (0 : Int) ≤ 1
    ∧ (getAttributeData (E := String) inst0 5 "c" "a"
        (fun _ _ => Except.ok [sampleA]) 0 1 (CacheState.empty CacheKey Series)).1
      = FutState.res (some (concatSeries
          ((runPeriods (E := String) inst0 5 "c" "a"
              (fun (_ : Int) (_ : Option Nat) => Except.ok [sampleA])
              (periodsList 0 1) (CacheState.empty CacheKey Series)).1.filterMap
            FutState.resOf))) :=
  ⟨by decide, (gad_result_shape inst0 5 "c" "a" (fun _ _ => [sampleA]) 0 1
    (CacheState.empty CacheKey Series)).2 (by decide)⟩
